import Mathlib

/-!
Verification of the `md` Markdown marshaler (package `md`: `interface.go`
and the main marshaling file).

Go values passed to `Marshal` as `interface{}` are embedded shallowly:

* a Go string — a value whose dynamic type is exactly `string` — becomes
  a `GoStr` (`List Char`, one entry per string unit); values of defined
  string types (string kind, dynamic type not `string`) are covered by
  the `GoValue` model further down, because `marshalStr` crashes on them;
* a struct becomes `Value.structv` carrying, per field in declared order,
  the field name, the value of the `markdown` struct tag, the result of
  `CanInterface()` (exported or not), and the field value;
* a pointer becomes `Value.ptrNil` / `Value.ptrSome`;
* a value whose type implements `Marshaler` becomes `Value.custom r u`,
  where `r` is the `([]byte, error)` pair its `MarshalMarkdown` returns
  (as an `Except`) and `u` is the underlying shape that default traversal
  would otherwise see;
* every other kind becomes `Value.other s`, carrying the text that
  `fmt.Sprintf("%v", v)` produces for it.

Errors are modeled by `Except GoStr`: Go `return nil, err` carries no
bytes, and `Except.error` likewise carries none.
-/

abbrev GoStr := List Char

instance {e a : Type} [DecidableEq e] [DecidableEq a] : DecidableEq (Except e a) := fun x y =>
  match x, y with
  | .ok u, .ok v => if h : u = v then isTrue (by rw [h]) else isFalse (by simp [h])
  | .error u, .error v => if h : u = v then isTrue (by rw [h]) else isFalse (by simp [h])
  | .ok _, .error _ => isFalse (by simp)
  | .error _, .ok _ => isFalse (by simp)

inductive Value : Type where
  | str : GoStr → Value
  | structv : List (GoStr × GoStr × Bool × Value) → Value
  | ptrNil : Value
  | ptrSome : Value → Value
  | custom : Except GoStr GoStr → Value → Value
  | other : GoStr → Value

/-- A struct field as reflection presents it: name, `markdown` tag value,
`CanInterface()`, field value. -/
abbrev GoField := GoStr × GoStr × Bool × Value

/-- `tagOmitField = "-"` from the source. -/
def tagOmitField : GoStr := "-".data

/-- `tagObfuscateField = "obfuscate"` from the source. -/
def tagObfuscateField : GoStr := "obfuscate".data

/-- The `marshalOpts` struct: indentation level and obfuscation flag. -/
structure marshalOpts where
  indentLevel : Nat
  obfuscate : Bool
deriving DecidableEq

/-- `func (o marshalOpts) withIncrementedIndentLevel() marshalOpts`. -/
def marshalOpts.withIncrementedIndentLevel (o : marshalOpts) : marshalOpts :=
  { o with indentLevel := o.indentLevel + 1 }

/-- `func obfuscate(str string) string`: strings of length at most 4 are
returned unchanged; otherwise all but the last 4 units are replaced by
`'*'` (`strings.Repeat("*", length-4) + str[length-4:]`). -/
def obfuscate (str : GoStr) : GoStr :=
  let length := str.length
  if length ≤ 4 then str
  else List.replicate (length - 4) '*' ++ str.drop (length - 4)

/-- `func marshalStr(v interface{}, opts marshalOpts)` on a value whose
dynamic type is exactly `string`, so that the type assertion
`v.(string)` succeeds (for any other type of string kind it panics; see
the `GoValue` model below). -/
def marshalStr (s : GoStr) (opts : marshalOpts) : Except GoStr GoStr :=
  .ok (if opts.obfuscate then obfuscate s else s)

/-- `func applyIndentation(lines []string, level int) []string`: every line
is prefixed with `level` tabs; then, if there is at least one line and
`level > 0`, a newline is prepended to the first line. -/
def applyIndentation (lines : List GoStr) (level : Nat) : List GoStr :=
  let indented := lines.map (fun line => List.replicate level '\t' ++ line)
  if 0 < level then
    match indented with
    | [] => []
    | l :: rest => ('\n' :: l) :: rest
  else indented

mutual

/-- `func marshal(v interface{}, opts marshalOpts) ([]byte, error)`: the
`Marshaler` check comes first and returns the custom result verbatim;
then the kind switch dispatches to string, struct, pointer, or the
default `fmt.Sprintf("%v", v)` branch.  The struct branch is
`marshalStruct` from the source, with its field loop factored into
`marshalFields`; the pointer cases are `marshalPrt`. -/
def marshal (v : Value) (opts : marshalOpts) : Except GoStr GoStr :=
  match v with
  | .custom r _ => r
  | .str s => marshalStr s opts
  | .structv fields =>
    match marshalFields fields opts with
    | .error e => .error e
    | .ok lines => .ok (List.intercalate ['\n'] (applyIndentation lines opts.indentLevel))
  | .ptrNil => .ok "null".data
  | .ptrSome w => marshal w opts
  | .other s => .ok s

/-- The field loop of `func marshalStruct`: unexported fields are skipped;
otherwise the field value is marshaled with the indent level incremented
(and the obfuscate flag set when the tag is `"obfuscate"`); an error
returns immediately; a field tagged `"-"` is then dropped; otherwise the
line `fmt.Sprintf("- **%s**: %s", name, marshaled)` is appended. -/
def marshalFields (fields : List GoField) (opts : marshalOpts) : Except GoStr (List GoStr) :=
  match fields with
  | [] => .ok []
  | (name, tagv, canInt, val) :: rest =>
    if !canInt then marshalFields rest opts
    else
      let innerOpts0 := opts.withIncrementedIndentLevel
      let innerOpts :=
        if tagv = tagObfuscateField then { innerOpts0 with obfuscate := true } else innerOpts0
      match marshal val innerOpts with
      | .error e => .error e
      | .ok marshaled =>
        if tagv = tagOmitField then marshalFields rest opts
        else
          match marshalFields rest opts with
          | .error e => .error e
          | .ok lines => .ok (("- **".data ++ name ++ "**: ".data ++ marshaled) :: lines)

end

/-- `func Marshal(v interface{}) ([]byte, error)` on a non-nil interface
value: `marshal(v, marshalOpts{indentLevel: 0})`. -/
def Marshal (v : Value) : Except GoStr GoStr :=
  marshal v { indentLevel := 0, obfuscate := false }

mutual

/-- Instrumentation for stating error propagation: the errors of every
custom (`Marshaler`) node occurring in a value, in traversal positions
(the unreached shape under a custom node is not collected). -/
def customErrors : Value → List GoStr
  | .custom (.error e) _ => [e]
  | .custom (.ok _) _ => []
  | .str _ => []
  | .structv fields => fieldsCustomErrors fields
  | .ptrNil => []
  | .ptrSome w => customErrors w
  | .other _ => []

def fieldsCustomErrors : List GoField → List GoStr
  | [] => []
  | (_, _, _, val) :: rest => customErrors val ++ fieldsCustomErrors rest

end

/-- Modelled from the spec words for the output format of composite
values: one given line per visible non-omitted field, each line prefixed
with `indentLevel` tab units, the first line of a nested block (depth
`d > 0`) additionally preceded by a newline, lines joined by single
newlines with no trailing newline. -/
def specRenderLines (lines : List GoStr) (d : Nat) : GoStr :=
  let indented := lines.map (fun l => List.replicate d '\t' ++ l)
  let blocked :=
    match indented with
    | [] => []
    | l :: rest => (if 0 < d then '\n' :: l else l) :: rest
  List.intercalate ['\n'] blocked

/-- The options used for the recursive call on a field's value: indent
level incremented, obfuscate flag set when the tag is `"obfuscate"`. -/
def fieldInnerOpts (tagv : GoStr) (opts : marshalOpts) : marshalOpts :=
  if tagv = tagObfuscateField then { opts.withIncrementedIndentLevel with obfuscate := true }
  else opts.withIncrementedIndentLevel

/-- Input values for the crash-aware model of `marshal`.  `GoValue`
extends `Value` by `strDefined`: a value of a defined string type
(`reflect.Kind` is `String` but the dynamic type is not `string`, e.g.
`type Token string`) that does not implement `Marshaler`.  The kind
switch sends such a value to `marshalStr`, whose type assertion
`v.(string)` then panics, because a Go type assertion to `string`
requires the dynamic type to be identical to `string`. -/
inductive GoValue : Type where
  | str : GoStr → GoValue
  | strDefined : GoStr → GoValue
  | structv : List (GoStr × GoStr × Bool × GoValue) → GoValue
  | ptrNil : GoValue
  | ptrSome : GoValue → GoValue
  | custom : Except GoStr GoStr → GoValue → GoValue
  | other : GoStr → GoValue

abbrev GoFieldG := GoStr × GoStr × Bool × GoValue

mutual

/-- Crash-aware `marshal` over `GoValue`: `none` is a runtime panic
unwinding the whole call (no bytes, no error), `some r` the normal
`([]byte, error)` return.  It follows the source exactly as `marshal`
and `marshalFields` do, plus the one panic site: a `strDefined` value
reaches `marshalStr` and dies at the `v.(string)` assertion. -/
def marshalG (v : GoValue) (opts : marshalOpts) : Option (Except GoStr GoStr) :=
  match v with
  | .custom r _ => some r
  | .str s => some (marshalStr s opts)
  | .strDefined _ => none
  | .structv fields =>
    match marshalFieldsG fields opts with
    | none => none
    | some (.error e) => some (.error e)
    | some (.ok lines) =>
      some (.ok (List.intercalate ['\n'] (applyIndentation lines opts.indentLevel)))
  | .ptrNil => some (.ok "null".data)
  | .ptrSome w => marshalG w opts
  | .other s => some (.ok s)

/-- The field loop of `marshalStruct` over `GoValue`: a panic in a
field's recursive call unwinds the loop (`none` propagates). -/
def marshalFieldsG (fields : List GoFieldG) (opts : marshalOpts) :
    Option (Except GoStr (List GoStr)) :=
  match fields with
  | [] => some (.ok [])
  | (name, tagv, canInt, val) :: rest =>
    if !canInt then marshalFieldsG rest opts
    else
      match marshalG val (fieldInnerOpts tagv opts) with
      | none => none
      | some (.error e) => some (.error e)
      | some (.ok marshaled) =>
        if tagv = tagOmitField then marshalFieldsG rest opts
        else
          match marshalFieldsG rest opts with
          | none => none
          | some (.error e) => some (.error e)
          | some (.ok lines) =>
            some (.ok (("- **".data ++ name ++ "**: ".data ++ marshaled) :: lines))

end

mutual

/-- A `GoValue` is crash-free when no `strDefined` value occurs in a
position the traversal can reach (the unreached shape under a `custom`
node cannot crash and is not inspected). -/
def crashFree : GoValue → Bool
  | .str _ => true
  | .strDefined _ => false
  | .structv fields => crashFreeFields fields
  | .ptrNil => true
  | .ptrSome w => crashFree w
  | .custom _ _ => true
  | .other _ => true

def crashFreeFields : List GoFieldG → Bool
  | [] => true
  | (_, _, _, val) :: rest => crashFree val && crashFreeFields rest

end

mutual

/-- The custom-encoder errors occurring in a `GoValue`, as
`customErrors` collects them for `Value`. -/
def customErrorsG : GoValue → List GoStr
  | .custom (.error e) _ => [e]
  | .custom (.ok _) _ => []
  | .str _ => []
  | .strDefined _ => []
  | .structv fields => fieldsCustomErrorsG fields
  | .ptrNil => []
  | .ptrSome w => customErrorsG w
  | .other _ => []

def fieldsCustomErrorsG : List GoFieldG → List GoStr
  | [] => []
  | (_, _, _, val) :: rest => customErrorsG val ++ fieldsCustomErrorsG rest

end

theorem marshal_structv_eq (fields : List GoField) (opts : marshalOpts) :
    marshal (.structv fields) opts =
      match marshalFields fields opts with
      | .error e => .error e
      | .ok lines => .ok (List.intercalate ['\n'] (applyIndentation lines opts.indentLevel)) :=
  rfl

theorem marshalFields_cons_eq (name tagv : GoStr) (canInt : Bool) (val : Value)
    (rest : List GoField) (opts : marshalOpts) :
    marshalFields ((name, tagv, canInt, val) :: rest) opts =
      if !canInt then marshalFields rest opts
      else
        match marshal val (fieldInnerOpts tagv opts) with
        | .error e => .error e
        | .ok marshaled =>
          if tagv = tagOmitField then marshalFields rest opts
          else
            match marshalFields rest opts with
            | .error e => .error e
            | .ok lines => .ok (("- **".data ++ name ++ "**: ".data ++ marshaled) :: lines) :=
  rfl

theorem fieldInnerOpts_omit (opts : marshalOpts) :
    fieldInnerOpts tagOmitField opts = opts.withIncrementedIndentLevel := by
  rw [fieldInnerOpts, if_neg (by decide)]

theorem fieldInnerOpts_empty (opts : marshalOpts) :
    fieldInnerOpts [] opts = opts.withIncrementedIndentLevel := by
  rw [fieldInnerOpts, if_neg (by decide)]

theorem fieldInnerOpts_obf (opts : marshalOpts) :
    fieldInnerOpts tagObfuscateField opts =
      { opts.withIncrementedIndentLevel with obfuscate := true } := by
  rw [fieldInnerOpts, if_pos rfl]

theorem marshalFields_append (fs1 fs2 : List GoField) (opts : marshalOpts) :
    marshalFields (fs1 ++ fs2) opts =
      match marshalFields fs1 opts with
      | .error e => .error e
      | .ok l1 =>
        match marshalFields fs2 opts with
        | .error e => .error e
        | .ok l2 => .ok (l1 ++ l2) := by
  induction fs1 with
  | nil =>
    cases h : marshalFields fs2 opts <;> simp [marshalFields, h]
  | cons f rest ih =>
    obtain ⟨name, tagv, canInt, val⟩ := f
    rw [List.cons_append, marshalFields_cons_eq, marshalFields_cons_eq]
    cases canInt with
    | false => simpa using ih
    | true =>
      simp only [Bool.not_true, Bool.false_eq_true, if_false]
      cases hm : marshal val (fieldInnerOpts tagv opts) with
      | error e => rfl
      | ok marshaled =>
        by_cases ht : tagv = tagOmitField
        · simp only [ht, if_pos rfl]
          exact ih
        · simp only [if_neg ht, ih]
          cases h1 : marshalFields rest opts <;> cases h2 : marshalFields fs2 opts <;> simp

mutual

theorem marshal_error_mem : ∀ (v : Value) (opts : marshalOpts) (e : GoStr),
    marshal v opts = .error e → e ∈ customErrors v
  | .custom r u, opts, e, h => by
    cases r with
    | ok b => exact absurd h (by simp [marshal])
    | error e2 =>
      have he : e2 = e := by simpa [marshal] using h
      simp [customErrors, he]
  | .str s, opts, e, h => by simp [marshal, marshalStr] at h
  | .structv fields, opts, e, h => by
    rw [marshal_structv_eq] at h
    cases hf : marshalFields fields opts with
    | error e2 =>
      rw [hf] at h
      simp only [Except.error.injEq] at h
      subst h
      simpa [customErrors] using marshalFields_error_mem fields opts e2 hf
    | ok lines => rw [hf] at h; simp at h
  | .ptrNil, opts, e, h => by simp [marshal] at h
  | .ptrSome w, opts, e, h => by
    have hw : marshal w opts = .error e := h
    simpa [customErrors] using marshal_error_mem w opts e hw
  | .other s, opts, e, h => by simp [marshal] at h

theorem marshalFields_error_mem : ∀ (fs : List GoField) (opts : marshalOpts) (e : GoStr),
    marshalFields fs opts = .error e → e ∈ fieldsCustomErrors fs
  | [], opts, e, h => by simp [marshalFields] at h
  | (name, tagv, canInt, val) :: rest, opts, e, h => by
    rw [marshalFields_cons_eq] at h
    cases canInt with
    | false =>
      simp only [Bool.not_false, if_pos] at h
      have := marshalFields_error_mem rest opts e h
      simp only [fieldsCustomErrors, List.mem_append]
      exact Or.inr this
    | true =>
      simp only [Bool.not_true, Bool.false_eq_true, if_false] at h
      cases hm : marshal val (fieldInnerOpts tagv opts) with
      | error e2 =>
        rw [hm] at h
        simp only [Except.error.injEq] at h
        subst h
        have := marshal_error_mem val (fieldInnerOpts tagv opts) e2 hm
        simp only [fieldsCustomErrors, List.mem_append]
        exact Or.inl this
      | ok marshaled =>
        rw [hm] at h
        dsimp only at h
        simp only [fieldsCustomErrors, List.mem_append]
        by_cases ht : tagv = tagOmitField
        · rw [if_pos ht] at h
          exact Or.inr (marshalFields_error_mem rest opts e h)
        · rw [if_neg ht] at h
          cases hr : marshalFields rest opts with
          | error e2 =>
            rw [hr] at h
            simp only [Except.error.injEq] at h
            subst h
            exact Or.inr (marshalFields_error_mem rest opts e2 hr)
          | ok lines => rw [hr] at h; simp at h

end

theorem applyIndentation_nil (level : Nat) : applyIndentation [] level = [] := by
  unfold applyIndentation
  simp

theorem specRenderLines_eq_applyIndentation (lines : List GoStr) (d : Nat) :
    specRenderLines lines d = List.intercalate ['\n'] (applyIndentation lines d) := by
  unfold specRenderLines applyIndentation
  by_cases hd : 0 < d
  · cases lines <;> simp [hd]
  · cases lines <;> simp [hd]

/-- Claim C1: for every string `s`, if the length `L` of `s` is at most 4,
redaction returns `s` unchanged; if `L > 4`, the redacted result has
length `L`, its first `L-4` units are all the mask character `'*'`, and
its last 4 units equal the last 4 units of `s`. -/
theorem obfuscate_spec (s : GoStr) :
    (s.length ≤ 4 → obfuscate s = s) ∧
    (4 < s.length →
      (obfuscate s).length = s.length ∧
      (obfuscate s).take (s.length - 4) = List.replicate (s.length - 4) '*' ∧
      (obfuscate s).drop (s.length - 4) = s.drop (s.length - 4)) := by
  constructor
  · intro h
    simp [obfuscate, h]
  · intro h
    have hn : ¬ s.length ≤ 4 := by omega
    simp only [obfuscate, if_neg hn]
    refine ⟨?_, ?_, ?_⟩
    · simp only [List.length_append, List.length_replicate, List.length_drop]
      omega
    · exact List.take_left' (by simp)
    · exact List.drop_left' (by simp)

theorem obfuscate_spec_witness :
    obfuscate "ab".data = "ab".data ∧
    (obfuscate "abcdef".data).length = "abcdef".data.length :=
  ⟨(obfuscate_spec "ab".data).1 (by decide), ((obfuscate_spec "abcdef".data).2 (by decide)).1⟩

/-- Claim C2: a value whose type implements `Marshaler` is encoded as
exactly the result of its own `MarshalMarkdown` call — the same bytes or
the same error — whatever its underlying shape `u` and whatever the
traversal context `opts` (so annotations, indentation and redaction are
all bypassed). -/
theorem marshal_custom_bypass (r : Except GoStr GoStr) (u : Value) (opts : marshalOpts) :
    marshal (.custom r u) opts = r :=
  rfl

/-- Claim C3: a visible field annotated `"-"` is still recursively encoded
before being dropped: if encoding its value fails, the enclosing struct
encoding fails with that very error (whatever fields follow); if it
succeeds, the field leaves no trace — the field list encodes exactly as
the same list with the field removed. -/
theorem omit_field_traversed (pre : List GoField) (n : GoStr) (val : Value)
    (post : List GoField) (opts : marshalOpts) :
    (∀ lp e, marshalFields pre opts = .ok lp →
       marshal val opts.withIncrementedIndentLevel = .error e →
       marshal (.structv (pre ++ (n, tagOmitField, true, val) :: post)) opts = .error e) ∧
    (∀ b, marshal val opts.withIncrementedIndentLevel = .ok b →
       marshalFields (pre ++ (n, tagOmitField, true, val) :: post) opts =
         marshalFields (pre ++ post) opts) := by
  constructor
  · intro lp e hlp he
    have hcons : marshalFields ((n, tagOmitField, true, val) :: post) opts = .error e := by
      rw [marshalFields_cons_eq, fieldInnerOpts_omit, he]
      rfl
    rw [marshal_structv_eq, marshalFields_append, hlp, hcons]
  · intro b hb
    have hcons : marshalFields ((n, tagOmitField, true, val) :: post) opts =
        marshalFields post opts := by
      rw [marshalFields_cons_eq, fieldInnerOpts_omit, hb]
      simp
    rw [marshalFields_append, marshalFields_append, hcons]

theorem omit_field_traversed_witness :
    marshal (.structv [("F".data, tagOmitField, true, .custom (.error "boom".data) .ptrNil)])
      { indentLevel := 0, obfuscate := false } = .error "boom".data ∧
    marshalFields [("G".data, tagOmitField, true, .str "x".data)]
        { indentLevel := 0, obfuscate := false } =
      marshalFields [] { indentLevel := 0, obfuscate := false } :=
  ⟨(omit_field_traversed [] "F".data (.custom (.error "boom".data) .ptrNil) []
      { indentLevel := 0, obfuscate := false }).1 [] "boom".data rfl rfl,
   (omit_field_traversed [] "G".data (.str "x".data) []
      { indentLevel := 0, obfuscate := false }).2 "x".data rfl⟩

/-- Claim C4: a struct at indentation level `d` renders exactly as the
spec words it (`specRenderLines`): the produced lines joined by single
newlines with no trailing newline, each line prefixed with `d` tabs, and
— when `d > 0` and at least one line was produced — the first line
additionally prefixed with one newline character; and each visible
non-omitted field produces exactly one line of the form
`- **FieldName**: value`. -/
theorem marshalStruct_format :
    (∀ (fields : List GoField) (opts : marshalOpts),
       marshal (.structv fields) opts =
         Except.map (fun lines => specRenderLines lines opts.indentLevel)
           (marshalFields fields opts)) ∧
    (∀ (name tagv : GoStr) (val : Value) (rest : List GoField) (opts : marshalOpts) (b : GoStr),
       tagv ≠ tagOmitField →
       marshal val (fieldInnerOpts tagv opts) = .ok b →
       marshalFields ((name, tagv, true, val) :: rest) opts =
         Except.map (fun lines => ("- **".data ++ name ++ "**: ".data ++ b) :: lines)
           (marshalFields rest opts)) := by
  constructor
  · intro fields opts
    rw [marshal_structv_eq]
    cases hf : marshalFields fields opts <;>
      simp [Except.map, specRenderLines_eq_applyIndentation]
  · intro name tagv val rest opts b ht hm
    rw [marshalFields_cons_eq, hm]
    cases hr : marshalFields rest opts <;> simp [ht, Except.map]

theorem marshalStruct_format_witness :
    marshalFields [("Name".data, [], true, .str "Alice".data)]
        { indentLevel := 0, obfuscate := false } =
      Except.map (fun lines => ("- **".data ++ "Name".data ++ "**: ".data ++ "Alice".data) :: lines)
        (marshalFields [] { indentLevel := 0, obfuscate := false }) :=
  marshalStruct_format.2 "Name".data [] (.str "Alice".data) []
    { indentLevel := 0, obfuscate := false } "Alice".data (by decide) (by decide)

/-- Claim C5: a nil pointer encodes as exactly the 4-unit literal `null`
with no error and no surrounding markup, in every traversal context; a
non-nil pointer is dereferenced once and its target encoded with the
same context. -/
theorem marshalPrt_spec :
    (∀ opts : marshalOpts, marshal .ptrNil opts = .ok "null".data ∧ ("null".data).length = 4) ∧
    (∀ (w : Value) (opts : marshalOpts), marshal (.ptrSome w) opts = marshal w opts) :=
  ⟨fun _ => ⟨rfl, rfl⟩, fun _ _ => rfl⟩

/-- Claim C6: the only errors `marshal` can return are the verbatim
errors of custom (`Marshaler`) encoders occurring in the value (no
wrapping; and `Except.error` carries no partial output, matching the Go
`return nil, err`); moreover a failing field makes the whole enclosing
struct encoding return exactly that error, whatever assembled text
preceded it and whatever fields follow. -/
theorem marshal_error_propagation :
    (∀ (v : Value) (opts : marshalOpts) (e : GoStr),
       marshal v opts = .error e → e ∈ customErrors v) ∧
    (∀ (pre : List GoField) (n tagv : GoStr) (val : Value) (post : List GoField)
       (opts : marshalOpts) (lp : List GoStr) (e : GoStr),
       marshalFields pre opts = .ok lp →
       marshal val (fieldInnerOpts tagv opts) = .error e →
       marshal (.structv (pre ++ (n, tagv, true, val) :: post)) opts = .error e) := by
  constructor
  · exact marshal_error_mem
  · intro pre n tagv val post opts lp e hlp he
    have hcons : marshalFields ((n, tagv, true, val) :: post) opts = .error e := by
      rw [marshalFields_cons_eq, he]
      rfl
    rw [marshal_structv_eq, marshalFields_append, hlp, hcons]

theorem marshal_error_propagation_witness :
    "boom".data ∈ customErrors (.custom (.error "boom".data) .ptrNil) ∧
    marshal (.structv [("F".data, [], true, .custom (.error "boom".data) .ptrNil)])
      { indentLevel := 0, obfuscate := false } = .error "boom".data :=
  ⟨marshal_error_propagation.1 (.custom (.error "boom".data) .ptrNil)
      { indentLevel := 0, obfuscate := false } "boom".data rfl,
   marshal_error_propagation.2 [] "F".data [] (.custom (.error "boom".data) .ptrNil) []
      { indentLevel := 0, obfuscate := false } [] "boom".data rfl rfl⟩

theorem marshalG_structv_eq (fields : List GoFieldG) (opts : marshalOpts) :
    marshalG (.structv fields) opts =
      match marshalFieldsG fields opts with
      | none => none
      | some (.error e) => some (.error e)
      | some (.ok lines) =>
        some (.ok (List.intercalate ['\n'] (applyIndentation lines opts.indentLevel))) :=
  rfl

theorem marshalFieldsG_cons_eq (name tagv : GoStr) (canInt : Bool) (val : GoValue)
    (rest : List GoFieldG) (opts : marshalOpts) :
    marshalFieldsG ((name, tagv, canInt, val) :: rest) opts =
      if !canInt then marshalFieldsG rest opts
      else
        match marshalG val (fieldInnerOpts tagv opts) with
        | none => none
        | some (.error e) => some (.error e)
        | some (.ok marshaled) =>
          if tagv = tagOmitField then marshalFieldsG rest opts
          else
            match marshalFieldsG rest opts with
            | none => none
            | some (.error e) => some (.error e)
            | some (.ok lines) =>
              some (.ok (("- **".data ++ name ++ "**: ".data ++ marshaled) :: lines)) :=
  rfl

mutual

theorem marshalG_total_mem : ∀ (v : GoValue) (opts : marshalOpts), crashFree v = true →
    (∃ b, marshalG v opts = some (.ok b)) ∨
      ∃ e, marshalG v opts = some (.error e) ∧ e ∈ customErrorsG v
  | .str s, opts, _ => Or.inl ⟨(if opts.obfuscate then obfuscate s else s), rfl⟩
  | .strDefined s, opts, h => by simp [crashFree] at h
  | .structv fields, opts, h => by
    have hf : crashFreeFields fields = true := by simpa [crashFree] using h
    rcases marshalFieldsG_total_mem fields opts hf with ⟨ls, hls⟩ | ⟨e, he, hmem⟩
    · exact Or.inl ⟨_, by rw [marshalG_structv_eq, hls]⟩
    · exact Or.inr ⟨e, by rw [marshalG_structv_eq, he], by
        simpa [customErrorsG] using hmem⟩
  | .ptrNil, opts, _ => Or.inl ⟨"null".data, rfl⟩
  | .ptrSome w, opts, h => by
    have hw : crashFree w = true := by simpa [crashFree] using h
    exact marshalG_total_mem w opts hw
  | .custom r u, opts, _ => by
    cases r with
    | ok b => exact Or.inl ⟨b, rfl⟩
    | error e => exact Or.inr ⟨e, rfl, by simp [customErrorsG]⟩
  | .other s, opts, _ => Or.inl ⟨s, rfl⟩

theorem marshalFieldsG_total_mem : ∀ (fs : List GoFieldG) (opts : marshalOpts),
    crashFreeFields fs = true →
    (∃ ls, marshalFieldsG fs opts = some (.ok ls)) ∨
      ∃ e, marshalFieldsG fs opts = some (.error e) ∧ e ∈ fieldsCustomErrorsG fs
  | [], opts, _ => Or.inl ⟨[], rfl⟩
  | (name, tagv, canInt, val) :: rest, opts, h => by
    have hsplit : crashFree val = true ∧ crashFreeFields rest = true := by
      simpa [crashFreeFields, Bool.and_eq_true] using h
    rw [marshalFieldsG_cons_eq]
    cases canInt with
    | false =>
      simp only [Bool.not_false, if_true]
      rcases marshalFieldsG_total_mem rest opts hsplit.2 with ⟨ls, hls⟩ | ⟨e, he, hm⟩
      · exact Or.inl ⟨ls, hls⟩
      · refine Or.inr ⟨e, he, ?_⟩
        simp only [fieldsCustomErrorsG, List.mem_append]
        exact Or.inr hm
    | true =>
      simp only [Bool.not_true, Bool.false_eq_true, if_false]
      rcases marshalG_total_mem val (fieldInnerOpts tagv opts) hsplit.1 with ⟨b, hb⟩ | ⟨e, he, hmem⟩
      · rw [hb]
        dsimp only
        by_cases ht : tagv = tagOmitField
        · rw [if_pos ht]
          rcases marshalFieldsG_total_mem rest opts hsplit.2 with ⟨ls, hls⟩ | ⟨e2, he2, hm2⟩
          · exact Or.inl ⟨ls, hls⟩
          · refine Or.inr ⟨e2, he2, ?_⟩
            simp only [fieldsCustomErrorsG, List.mem_append]
            exact Or.inr hm2
        · rw [if_neg ht]
          rcases marshalFieldsG_total_mem rest opts hsplit.2 with ⟨ls, hls⟩ | ⟨e2, he2, hm2⟩
          · rw [hls]
            exact Or.inl ⟨_, rfl⟩
          · rw [he2]
            refine Or.inr ⟨e2, rfl, ?_⟩
            simp only [fieldsCustomErrorsG, List.mem_append]
            exact Or.inr hm2
      · rw [he]
        refine Or.inr ⟨e, rfl, ?_⟩
        simp only [fieldsCustomErrorsG, List.mem_append]
        exact Or.inl hmem

end

/-- Claim C8: the obfuscate annotation on one field sets the redaction
flag only for that field's recursive call.  With the annotated field in
any position, the lines produced by the preceding fields (`lp`) and the
following fields (`lq`) are computed from the unchanged outer context
and are identical whether the field carries the `"obfuscate"` tag or no
tag at all — only the annotated field's own value changes. -/
theorem obfuscate_not_sticky (pre post : List GoField) (n : GoStr) (val : Value)
    (opts : marshalOpts) (lp lq : List GoStr) (b b0 : GoStr)
    (hpre : marshalFields pre opts = .ok lp)
    (hpost : marshalFields post opts = .ok lq)
    (hb : marshal val { opts.withIncrementedIndentLevel with obfuscate := true } = .ok b)
    (hb0 : marshal val opts.withIncrementedIndentLevel = .ok b0) :
    marshalFields (pre ++ (n, tagObfuscateField, true, val) :: post) opts =
      .ok (lp ++ ("- **".data ++ n ++ "**: ".data ++ b) :: lq) ∧
    marshalFields (pre ++ (n, [], true, val) :: post) opts =
      .ok (lp ++ ("- **".data ++ n ++ "**: ".data ++ b0) :: lq) := by
  constructor
  · have hcons : marshalFields ((n, tagObfuscateField, true, val) :: post) opts =
        .ok (("- **".data ++ n ++ "**: ".data ++ b) :: lq) := by
      rw [marshalFields_cons_eq, fieldInnerOpts_obf, hb, hpost]
      rfl
    rw [marshalFields_append, hpre, hcons]
  · have hcons : marshalFields ((n, [], true, val) :: post) opts =
        .ok (("- **".data ++ n ++ "**: ".data ++ b0) :: lq) := by
      rw [marshalFields_cons_eq, fieldInnerOpts_empty, hb0, hpost]
      rfl
    rw [marshalFields_append, hpre, hcons]

theorem obfuscate_not_sticky_witness :
    marshalFields [("S".data, [], true, .str "sib".data),
        ("T".data, tagObfuscateField, true, .str "abcdefgh".data)]
        { indentLevel := 0, obfuscate := false } =
      .ok (["- **".data ++ "S".data ++ "**: ".data ++ "sib".data] ++
        ("- **".data ++ "T".data ++ "**: ".data ++ "****efgh".data) :: []) ∧
    marshalFields [("S".data, [], true, .str "sib".data),
        ("T".data, [], true, .str "abcdefgh".data)]
        { indentLevel := 0, obfuscate := false } =
      .ok (["- **".data ++ "S".data ++ "**: ".data ++ "sib".data] ++
        ("- **".data ++ "T".data ++ "**: ".data ++ "abcdefgh".data) :: []) :=
  obfuscate_not_sticky [("S".data, [], true, .str "sib".data)] [] "T".data
    (.str "abcdefgh".data) { indentLevel := 0, obfuscate := false }
    ["- **".data ++ "S".data ++ "**: ".data ++ "sib".data] [] "****efgh".data "abcdefgh".data
    (by decide) (by decide) (by decide) (by decide)

/-- Claim C9, counterexample: a struct whose only field is visible and
annotated `"-"` has no visible non-omitted fields, yet `Marshal` does
not return the empty string when that omitted field's custom encoder
fails — it returns the error. -/
theorem empty_struct_counterexample :
    Marshal (.structv [("F".data, tagOmitField, true, .custom (.error "oops".data) .ptrNil)]) =
      .error "oops".data ∧
    Marshal (.structv [("F".data, tagOmitField, true, .custom (.error "oops".data) .ptrNil)]) ≠
      .ok [] := by
  constructor
  · rfl
  · decide

/-- Claim C9, amended: a struct with no visible non-omitted fields
encodes to the empty string, provided encoding its (traversed) omitted
fields succeeds — i.e. whenever the field loop returns without error. -/
theorem marshalStruct_empty (fields : List GoField) (opts : marshalOpts) (ls : List GoStr)
    (hall : ∀ f ∈ fields, f.2.2.1 = true → f.2.1 = tagOmitField)
    (hok : marshalFields fields opts = .ok ls) :
    marshal (.structv fields) opts = .ok [] := by
  have hnil : ∀ (fs : List GoField) (o : marshalOpts) (l : List GoStr),
      (∀ f ∈ fs, f.2.2.1 = true → f.2.1 = tagOmitField) →
      marshalFields fs o = .ok l → l = [] := by
    intro fs
    induction fs with
    | nil =>
      intro o l _ h
      simp only [marshalFields, Except.ok.injEq] at h
      exact h.symm
    | cons f rest ih =>
      intro o l hall2 hok2
      obtain ⟨nm, tg, c, v⟩ := f
      rw [marshalFields_cons_eq] at hok2
      cases c with
      | false =>
        simp only [Bool.not_false, if_true] at hok2
        exact ih o l (fun g hg => hall2 g (List.mem_cons_of_mem _ hg)) hok2
      | true =>
        have htg : tg = tagOmitField := hall2 (nm, tg, true, v) (List.mem_cons_self _ _) rfl
        subst htg
        simp only [Bool.not_true, Bool.false_eq_true, if_false] at hok2
        cases hm : marshal v (fieldInnerOpts tagOmitField o) with
        | error e => rw [hm] at hok2; simp at hok2
        | ok b =>
          rw [hm] at hok2
          simp only [if_pos rfl] at hok2
          exact ih o l (fun g hg => hall2 g (List.mem_cons_of_mem _ hg)) hok2
  have hls : ls = [] := hnil fields opts ls hall hok
  subst hls
  rw [marshal_structv_eq, hok]
  dsimp only
  rw [applyIndentation_nil]
  rfl

theorem marshalStruct_empty_witness :
    marshal (.structv [("A".data, tagOmitField, true, .str "x".data), ("B".data, [], false, .ptrNil)])
      { indentLevel := 0, obfuscate := false } = .ok [] :=
  marshalStruct_empty
    [("A".data, tagOmitField, true, .str "x".data), ("B".data, [], false, .ptrNil)]
    { indentLevel := 0, obfuscate := false } [] (by decide) (by decide)

/-- Claim C10, counterexample: a field of pointer kind (non-string)
annotated `"obfuscate"` does not render as its default unmasked form:
the flag propagates through the dereference and masks the string behind
the pointer, so the output differs from the annotation-free one. -/
theorem obfuscate_nonstring_counterexample :
    Marshal (.structv [("P".data, tagObfuscateField, true, .ptrSome (.str "abcdefgh".data))]) =
      .ok "- **P**: ****efgh".data ∧
    Marshal (.structv [("P".data, [], true, .ptrSome (.str "abcdefgh".data))]) =
      .ok "- **P**: abcdefgh".data := by
  constructor <;> decide

/-- Claim C10, amended: the redaction flag is a no-op exactly on values
that reach the default `fmt.Sprintf("%v", v)` branch (numeric, boolean,
and other non-string, non-struct, non-pointer, non-Marshaler kinds):
such a value renders as its default text under every context, and a
field holding such a value renders identically with the `"obfuscate"`
tag and with no tag; for string values — also those reached through
pointers or nested structs — the flag masks the text. -/
theorem obfuscate_default_kind_noop :
    (∀ (s : GoStr) (opts : marshalOpts), marshal (.other s) opts = .ok s) ∧
    (∀ (nm s : GoStr) (rest : List GoField) (opts : marshalOpts),
       marshalFields ((nm, tagObfuscateField, true, .other s) :: rest) opts =
         marshalFields ((nm, [], true, .other s) :: rest) opts) := by
  constructor
  · intro s opts
    rfl
  · intro nm s rest opts
    rw [marshalFields_cons_eq, marshalFields_cons_eq]
    rfl
